import Mathlib

/-!
# BGP speaker: pod CIDR announcement and withdrawal

A shallow embedding of `pkg/bgp/speaker/pod_cidr.go`: the functions `withDraw`,
`announcePodCIDRs` and `announce` of the `Speaker`, together with the part of
their environment they touch (peer sessions, the logger, the CIDR parser and
the two goroutine groups).

Modelling decisions:

* A Go `error` is an `Option Error`; `none` is `nil`.  An error value is
  either one handed in by a collaborator (a session, the parser) or one
  created in this file by `errors.New`; the two kinds are never equal, as a
  freshly allocated error is equal to no other error value.
* A peer session is an opaque stateful object.  It is represented by the
  history of advertisement batches it has received and a response function
  giving the outcome of its next `Set` call from that history and the
  arguments, so the outcome of every call is arbitrary.
* `cidr.ParseCIDR` is not part of the file; it is a parameter `parse` of the
  functions that use it.
* Each goroutine touches only its own session and the log, so the goroutine
  bodies are run one after the other, in an order chosen by a schedule, an
  arbitrary list of numbers; `completionOrder` turns it into an order of the
  sessions (`completionOrder_perm`), and every order of the sessions arises
  from some schedule (`completionOrder_surj`).  The call history `World.trace`
  is kept in that order: it is the order of the `Set` calls.
* A goroutine body returning and its error reaching the `errgroup.Group` are
  two events; other goroutines may run in between.  The order in which the
  returned errors reach the group is therefore chosen by a second, independent
  schedule (`hand` below), and `errgroup.Wait` keeps the first non-nil error
  in that order.  Every pair of a call order and a hand-over order occurs in
  some run: all bodies run first, then the errors are handed over.
-/

namespace Speaker

/-! ## Data model -/

/-- Go's `net.IPNet`: an address and a mask, both byte slices. -/
structure IPNet where
  IP : List Nat
  Mask : List Nat
  deriving DecidableEq, Repr

/-- The value `cidr.ParseCIDR` returns: a `cidr.CIDR` embeds an `IPNet`. -/
structure CIDR where
  IPNet : IPNet
  deriving DecidableEq, Repr

/-- The type `metallbbgp.Advertisement`.  The source sets only `Prefix`; the
other fields keep their zero value. -/
structure Advertisement where
  Prefix : IPNet
  NextHop : List Nat := []
  LocalPref : Nat := 0
  Communities : List Nat := []
  deriving DecidableEq, Repr

/-- An error value made outside this file, by a session or by the parser. -/
structure ForeignError where
  msg : String
  deriving DecidableEq, Repr

/-- A non-nil Go error value: either a value a collaborator returned, passed on
as it is, or a value created here by `errors.New`. -/
inductive Error where
  | foreign (e : ForeignError)
  | created (msg : String)
  deriving DecidableEq, Repr

/-- The function `errors.New`. -/
def errors.New (msg : String) : Error := Error.created msg

/-- The type of `cidr.ParseCIDR`, which the functions below take as a
parameter. -/
abbrev Parser := String → Except ForeignError CIDR

/-- A `metallbspr.Session`: the batches received so far (oldest first) and the
outcome of the next `Set` call as a function of that history and of the
arguments. -/
structure Session where
  calls : List (List Advertisement)
  respond : List (List Advertisement) → List Advertisement → Option ForeignError

/-- One record of the logger. -/
inductive LogEntry where
  | error (msg : String) (err : Error) (cidr : Option String)
  | debug (msg : String) (cidrs : List String)
  deriving DecidableEq, Repr

/-- One `Set` call as observed from outside: the session (its position in
`PeerSessions()`), the arguments and the returned error. -/
structure SetCall where
  sess : Nat
  advs : List Advertisement
  err : Option Error
  deriving DecidableEq, Repr

/-- The state the speaker's functions act on: the peer sessions, the log, and
the history of all `Set` calls in the order they were made. -/
structure World where
  peers : List Session
  log : List LogEntry
  trace : List SetCall

/-- The accessor `s.PeerSessions()`: a snapshot of the session handles.  A
handle is the position of the session in `World.peers`. -/
def PeerSessions (w : World) : List Nat := List.range w.peers.length

/-- The call `sess.Set(advs...)` on the session with handle `sess`: the session
answers from its history and the arguments, and the batch is appended to its
history and the call to the trace.  Handles come from `PeerSessions`, so the
first branch is never taken by the functions below. -/
def Set (sess : Nat) (advs : List Advertisement) (w : World) : Option Error × World :=
  match w.peers[sess]? with
  | none => (none, w)
  | some p =>
    let err := (p.respond p.calls advs).map Error.foreign
    (err, { w with
      peers := w.peers.set sess { p with calls := p.calls ++ [advs] }
      trace := w.trace ++ [⟨sess, advs, err⟩] })

/-- The package variable `emptyAdverts`. -/
def emptyAdverts : List Advertisement := []

/-! ## Goroutine groups -/

/-- Auxiliary for `completionOrder`: `n` bounds the number of picks. -/
def pickAll {α : Type} : Nat → List Nat → List α → List α
  | 0, _, _ => []
  | n + 1, sched, pending =>
    match pending[sched.headD 0 % pending.length]? with
    | none => []
    | some t => t :: pickAll n sched.tail (pending.eraseIdx (sched.headD 0 % pending.length))

/-- The order in which the launched goroutines complete.  At each step the
head of the schedule selects one of the tasks still pending. -/
def completionOrder {α : Type} (sched : List Nat) (tasks : List α) : List α :=
  pickAll tasks.length sched tasks

/-- Run the goroutine bodies one after the other in the given order, collecting
what each returns. -/
def goEach {ρ : Type} (f : Nat → World → ρ × World) : List Nat → World → List ρ × World
  | [], w => ([], w)
  | t :: ts, w =>
    let r := f t w
    let rs := goEach f ts r.2
    (r.1 :: rs.1, rs.2)

/-- The method `errgroup.Group.Wait` once all goroutines have returned: the
first non-nil error in the order in which the returned errors reached the
group (`errOnce`), or nil. -/
def errgroup.Wait (returned : List (Option Error)) : Option Error :=
  returned.findSome? id

/-! ## The functions of `pod_cidr.go` -/

/-- The goroutine body of `withDraw`. -/
def withDrawTask (sess : Nat) (w : World) : Unit × World :=
  let r := Set sess emptyAdverts w
  match r.1 with
  | some err =>
    ((), { r.2 with log := r.2.log ++ [LogEntry.error "Failed to withdraw BGP routes" err none] })
  | none => ((), r.2)

/-- The function `Speaker.withDraw`: one goroutine per session under a
`sync.WaitGroup`; the result is always nil. -/
def withDraw (sched : List Nat) (w : World) : Option Error × World :=
  let r := goEach withDrawTask (completionOrder sched (PeerSessions w)) w
  (none, r.2)

/-- The parsing loop of `announce`: `adverts` and `log` are the accumulators. -/
def announceLoop (parse : Parser) :
    List String → List Advertisement → List LogEntry → List Advertisement × List LogEntry
  | [], adverts, log => (adverts, log)
  | c :: cs, adverts, log =>
    match parse c with
    | Except.error err =>
      announceLoop parse cs adverts
        (log ++
          [LogEntry.error "Could not announce malformed CIDR" (Error.foreign err) (some c)])
    | Except.ok parsed =>
      announceLoop parse cs (adverts ++ [{ Prefix := parsed.IPNet }]) log

/-- The function `Speaker.announce`. -/
def announce (parse : Parser) (session : Nat) (cidrs : List String) (w : World) :
    Option Error × World :=
  let r := announceLoop parse cidrs [] w.log
  let w1 := { w with log := r.2 }
  if r.1.length = 0 then
    (some (errors.New "no BGP advertisements made"), w1)
  else
    Set session r.1 w1

/-- The goroutine body of `announcePodCIDRs`. -/
def announceTask (parse : Parser) (cidrs : List String) (sess : Nat) (w : World) :
    Option Error × World :=
  let r := announce parse sess cidrs w
  match r.1 with
  | none => (none, { r.2 with log := r.2.log ++ [LogEntry.debug "Announced Pod CIDRs" cidrs] })
  | some err => (some err, r.2)

/-- What the goroutines of `announcePodCIDRs` return, in the order in which
their bodies run, and the state they leave. -/
def announcePodCIDRsGo (parse : Parser) (sched : List Nat) (cidrs : List String) (w : World) :
    List (Option Error) × World :=
  goEach (announceTask parse cidrs) (completionOrder sched (PeerSessions w)) w

/-- The function `Speaker.announcePodCIDRs`: one goroutine per session under
an `errgroup.Group`; the result is `eg.Wait()`.  The bodies run in the order
`sched` selects, and the errors they return reach the group in the order
`hand` selects among them. -/
def announcePodCIDRs (parse : Parser) (sched hand : List Nat) (cidrs : List String)
    (w : World) : Option Error × World :=
  let r := announcePodCIDRsGo parse sched cidrs w
  (errgroup.Wait (completionOrder hand r.1), r.2)

/-! ## Vocabulary of the specification -/

/-- The advertisement of a prefix string, if it parses. -/
def advertOf (parse : Parser) (c : String) : Option Advertisement :=
  match parse c with
  | Except.ok parsed => some { Prefix := parsed.IPNet }
  | Except.error _ => none

/-- Whether a prefix string parses. -/
def parses (parse : Parser) (c : String) : Bool := (advertOf parse c).isSome

/-- The advertisement list as the specification describes it: the parsed
networks of the entries that parse, in input order. -/
def advertsOf (parse : Parser) (cidrs : List String) : List Advertisement :=
  cidrs.filterMap (advertOf parse)

/-- The `Set` calls made between two states. -/
def callsMade (before after : World) : List SetCall :=
  after.trace.drop before.trace.length

/-- The batches the session with handle `i` holds in state `w`. -/
def received (w : World) (i : Nat) : List (List Advertisement) :=
  match w.peers[i]? with
  | some p => p.calls
  | none => []

/-- The batches session `i` received between two states. -/
def newBatches (before after : World) (i : Nat) : List (List Advertisement) :=
  (received after i).drop (received before i).length

/-- The `Set` calls in the order in which the errors they returned reach the
`errgroup.Group`, for calls listed in the order they were made. -/
def handedOver (hand : List Nat) (calls : List SetCall) : List SetCall :=
  completionOrder hand calls

/-- The outcome a `Set` call with arguments `advs` has on session `i` in state `w`. -/
def outcome (w : World) (i : Nat) (advs : List Advertisement) : Option Error :=
  match w.peers[i]? with
  | some p => (p.respond p.calls advs).map Error.foreign
  | none => none

/-- The error `announce` creates when nothing parsed. -/
def noAdverts : Error := errors.New "no BGP advertisements made"

/-- A session after it has received one more batch. -/
def push (advs : List Advertisement) (p : Session) : Session :=
  { p with calls := p.calls ++ [advs] }

/-- A goroutine body that makes exactly one call, `Set` with the arguments
`advs` on its own session, and returns `g` of that call's outcome. -/
def CallsSet {ρ : Type} (advs : List Advertisement) (g : Option Error → ρ)
    (f : Nat → World → ρ × World) : Prop :=
  ∀ i w, (f i w).1 = g (outcome w i advs) ∧
    (f i w).2.peers = (Set i advs w).2.peers ∧ (f i w).2.trace = (Set i advs w).2.trace

/-- A goroutine body that makes no call and always returns `c`. -/
def Silent {ρ : Type} (c : ρ) (f : Nat → World → ρ × World) : Prop :=
  ∀ i w, (f i w).1 = c ∧ (f i w).2.peers = w.peers ∧ (f i w).2.trace = w.trace

/-! ## Sample environment used to instantiate the statements -/

/-- A sample parser: it knows two networks and rejects everything else. -/
def sampleParse : Parser := fun c =>
  if c = "10.0.0.0/24" then Except.ok ⟨⟨[10, 0, 0, 0], [255, 255, 255, 0]⟩⟩
  else if c = "10.0.1.0/24" then Except.ok ⟨⟨[10, 0, 1, 0], [255, 255, 255, 0]⟩⟩
  else Except.error ⟨"invalid CIDR address: " ++ c⟩

/-- A session that accepts every call. -/
def okSession : Session := ⟨[], fun _ _ => none⟩

/-- A session that rejects every call with the given message. -/
def badSession (msg : String) : Session := ⟨[], fun _ _ => some ⟨msg⟩⟩

/-- A state with the given sessions, an empty log and an empty call history. -/
def worldOf (peers : List Session) : World := ⟨peers, [], []⟩

/-- A sample prefix list: two well-formed entries around a malformed one. -/
def sampleCidrs : List String := ["10.0.0.0/24", "bad-cidr", "10.0.1.0/24"]

/-- A sample state: one session that accepts and two that reject. -/
def sampleWorld : World := worldOf [okSession, badSession "peer 1 down", badSession "peer 2 down"]

/-- A sample state in which all three sessions reject. -/
def sampleDown : World :=
  worldOf [badSession "peer 0 down", badSession "peer 1 down", badSession "peer 2 down"]

/-! ## Scheduling lemmas -/

theorem perm_cons_eraseIdx {α : Type} (l : List α) (k : Nat) (t : α) (h : l[k]? = some t) :
    (t :: l.eraseIdx k).Perm l := by
  induction l generalizing k with
  | nil => simp at h
  | cons a as ih =>
    cases k with
    | zero =>
      simp at h
      subst h
      simp
    | succ k =>
      simp at h
      simp only [List.eraseIdx_cons_succ]
      exact (List.Perm.swap a t _).trans ((ih k h).cons a)

theorem pickAll_perm {α : Type} (n : Nat) (sched : List Nat) (pending : List α)
    (h : pending.length = n) : (pickAll n sched pending).Perm pending := by
  induction n generalizing sched pending with
  | zero =>
    have : pending = [] := List.length_eq_zero.mp h
    subst this
    simp [pickAll]
  | succ n ih =>
    have hpos : 0 < pending.length := by omega
    have hk : sched.headD 0 % pending.length < pending.length := Nat.mod_lt _ hpos
    simp only [pickAll]
    rw [List.getElem?_eq_getElem hk]
    simp only
    have hlen : (pending.eraseIdx (sched.headD 0 % pending.length)).length = n := by
      rw [List.length_eraseIdx_of_lt hk]; omega
    exact ((ih sched.tail _ hlen).cons _).trans
      (perm_cons_eraseIdx pending _ _ (List.getElem?_eq_getElem hk))

/-- Every schedule runs each launched task exactly once. -/
theorem completionOrder_perm {α : Type} (sched : List Nat) (tasks : List α) :
    (completionOrder sched tasks).Perm tasks :=
  pickAll_perm _ sched tasks rfl

/-- Every order of the launched tasks is the completion order of some schedule. -/
theorem completionOrder_surj {α : Type} (order tasks : List α) (h : order.Perm tasks) :
    ∃ sched, completionOrder sched tasks = order := by
  induction order generalizing tasks with
  | nil =>
    have : tasks = [] := (List.Perm.nil_eq h).symm
    subst this
    exact ⟨[], rfl⟩
  | cons t r ih =>
    have hmem : t ∈ tasks := h.subset (List.mem_cons_self t r)
    obtain ⟨k, hk, hget⟩ := List.getElem_of_mem hmem
    have hget? : tasks[k]? = some t := by rw [List.getElem?_eq_getElem hk, hget]
    have hr : r.Perm (tasks.eraseIdx k) :=
      List.Perm.cons_inv (h.trans (perm_cons_eraseIdx tasks k t hget?).symm)
    obtain ⟨s, hs⟩ := ih _ hr
    refine ⟨k :: s, ?_⟩
    have hlen : tasks.length = (tasks.eraseIdx k).length + 1 := by
      rw [List.length_eraseIdx_of_lt hk]; omega
    unfold completionOrder at hs ⊢
    rw [hlen]
    simp only [pickAll, List.headD_cons, List.tail_cons]
    rw [Nat.mod_eq_of_lt hk, hget?]
    simp only
    rw [hs]

theorem eraseIdx_map {α β : Type} (f : α → β) (l : List α) (k : Nat) :
    (l.map f).eraseIdx k = (l.eraseIdx k).map f := by
  induction l generalizing k with
  | nil => rfl
  | cons a as ih =>
    cases k with
    | zero => rfl
    | succ k => simp only [List.map_cons, List.eraseIdx_cons_succ, ih]

theorem pickAll_map {α β : Type} (f : α → β) (n : Nat) (sched : List Nat) (l : List α) :
    pickAll n sched (l.map f) = (pickAll n sched l).map f := by
  induction n generalizing sched l with
  | zero => rfl
  | succ n ih =>
    simp only [pickAll, List.length_map, List.getElem?_map, eraseIdx_map]
    cases l[sched.headD 0 % l.length]? with
    | none => rfl
    | some t => simp only [Option.map_some', List.map_cons, ih]

/-- The schedule selects positions, so it commutes with mapping over the tasks. -/
theorem completionOrder_map {α β : Type} (f : α → β) (sched : List Nat) (l : List α) :
    completionOrder sched (l.map f) = (completionOrder sched l).map f := by
  unfold completionOrder
  rw [List.length_map, pickAll_map]

theorem completionOrder_replicate {α : Type} (sched : List Nat) (n : Nat) (a : α) :
    completionOrder sched (List.replicate n a) = List.replicate n a :=
  List.perm_replicate.mp (completionOrder_perm sched _)

theorem mem_handOrder (sched hand : List Nat) (w : World) (i : Nat) :
    i ∈ completionOrder hand (completionOrder sched (PeerSessions w)) ↔
      i < w.peers.length := by
  rw [(completionOrder_perm hand _).mem_iff, (completionOrder_perm sched _).mem_iff]
  simp [PeerSessions]

theorem order_nodup (sched : List Nat) (w : World) :
    (completionOrder sched (PeerSessions w)).Nodup :=
  (completionOrder_perm sched _).nodup_iff.mpr (List.nodup_range _)

theorem mem_order (sched : List Nat) (w : World) (i : Nat) :
    i ∈ completionOrder sched (PeerSessions w) ↔ i < w.peers.length := by
  rw [(completionOrder_perm sched _).mem_iff]
  simp [PeerSessions]

theorem order_length (sched : List Nat) (w : World) :
    (completionOrder sched (PeerSessions w)).length = w.peers.length := by
  rw [(completionOrder_perm sched _).length_eq]
  simp [PeerSessions]

/-! ## Effect of one `Set` call -/

theorem Set_fst (i : Nat) (advs : List Advertisement) (w : World) :
    (Set i advs w).1 = outcome w i advs := by
  unfold Set outcome
  cases w.peers[i]? <;> rfl

theorem Set_log (i : Nat) (advs : List Advertisement) (w : World) :
    (Set i advs w).2.log = w.log := by
  unfold Set
  cases w.peers[i]? <;> rfl

theorem Set_trace (i : Nat) (advs : List Advertisement) (w : World) (h : i < w.peers.length) :
    (Set i advs w).2.trace = w.trace ++ [⟨i, advs, outcome w i advs⟩] := by
  unfold Set outcome
  rw [List.getElem?_eq_getElem h]

theorem Set_peers_length (i : Nat) (advs : List Advertisement) (w : World) :
    (Set i advs w).2.peers.length = w.peers.length := by
  unfold Set
  cases w.peers[i]? <;> simp

theorem Set_peers_getElem? (i : Nat) (advs : List Advertisement) (w : World) (j : Nat) :
    (Set i advs w).2.peers[j]? =
      if j = i then (w.peers[j]?).map (push advs) else w.peers[j]? := by
  unfold Set
  by_cases hji : j = i
  · subst hji
    cases h : w.peers[j]? with
    | none => simp [h]
    | some p =>
      have hlt : j < w.peers.length := by
        by_contra hge
        rw [List.getElem?_eq_none (by omega)] at h
        exact Option.noConfusion h
      simp [List.getElem?_set, hlt, push]
  · cases h : w.peers[i]? with
    | none => simp [hji]
    | some p =>
      have hij : ¬ i = j := fun e => hji e.symm
      simp [List.getElem?_set, hji, hij]

theorem Set_withLog (i : Nat) (advs : List Advertisement) (w : World) (l : List LogEntry) :
    (Set i advs { w with log := l }).1 = (Set i advs w).1 ∧
    (Set i advs { w with log := l }).2.peers = (Set i advs w).2.peers ∧
    (Set i advs { w with log := l }).2.trace = (Set i advs w).2.trace := by
  unfold Set
  cases w.peers[i]? <;> simp

theorem outcome_congr (w w1 : World) (j : Nat) (advs : List Advertisement)
    (h : w1.peers[j]? = w.peers[j]?) : outcome w1 j advs = outcome w j advs := by
  unfold outcome
  rw [h]

/-! ## Running a group of goroutines -/

/-- A group of goroutines that each call `Set` once with `advs`, run in an order
without repetition: what they return, the calls appended to the trace, and the
sessions they leave. -/
theorem goEach_callsSet {ρ : Type} (advs : List Advertisement) (g : Option Error → ρ)
    (f : Nat → World → ρ × World) (hf : CallsSet advs g f) (order : List Nat) (w : World)
    (hnd : order.Nodup) (hlt : ∀ i ∈ order, i < w.peers.length) :
    (goEach f order w).1 = order.map (fun i => g (outcome w i advs)) ∧
    (goEach f order w).2.trace = w.trace ++ order.map (fun i => ⟨i, advs, outcome w i advs⟩) ∧
    (goEach f order w).2.peers.length = w.peers.length ∧
    ∀ j, (goEach f order w).2.peers[j]? =
      if j ∈ order then (w.peers[j]?).map (push advs) else w.peers[j]? := by
  induction order generalizing w with
  | nil => simp [goEach]
  | cons i rest ih =>
    obtain ⟨hfst, hpeers, htrace⟩ := hf i w
    have hi : i < w.peers.length := hlt i (List.mem_cons_self i rest)
    have hnotin : i ∉ rest := (List.nodup_cons.mp hnd).1
    have hlen1 : (f i w).2.peers.length = w.peers.length := by
      rw [hpeers, Set_peers_length]
    have hget1 : ∀ j, (f i w).2.peers[j]? =
        if j = i then (w.peers[j]?).map (push advs) else w.peers[j]? := by
      intro j
      rw [hpeers, Set_peers_getElem?]
    have hout : ∀ k ∈ rest, outcome (f i w).2 k advs = outcome w k advs := by
      intro k hk
      apply outcome_congr
      rw [hget1 k, if_neg (fun e => hnotin (by rw [← e]; exact hk))]
    obtain ⟨ih1, ih2, ih3, ih4⟩ := ih (f i w).2 (List.nodup_cons.mp hnd).2
      (fun k hk => by rw [hlen1]; exact hlt k (List.mem_cons_of_mem i hk))
    refine ⟨?_, ?_, ?_, ?_⟩
    · simp only [goEach, List.map_cons]
      rw [ih1, hfst]
      congr 1
      exact List.map_congr_left (fun k hk => by rw [hout k hk])
    · simp only [goEach, List.map_cons]
      rw [ih2, htrace, Set_trace i advs w hi, List.append_assoc]
      congr 1
      simp only [List.singleton_append]
      congr 1
      exact List.map_congr_left (fun k hk => by rw [hout k hk])
    · simp only [goEach]
      rw [ih3, hlen1]
    · intro j
      simp only [goEach]
      rw [ih4 j, hget1 j]
      by_cases hji : j = i
      · subst hji
        simp [hnotin]
      · simp [hji]

/-- A group of goroutines that make no call leaves sessions and trace as they
were. -/
theorem goEach_silent {ρ : Type} (c : ρ) (f : Nat → World → ρ × World) (hf : Silent c f)
    (order : List Nat) (w : World) :
    (goEach f order w).1 = List.replicate order.length c ∧
    (goEach f order w).2.peers = w.peers ∧ (goEach f order w).2.trace = w.trace := by
  induction order generalizing w with
  | nil => simp [goEach]
  | cons i rest ih =>
    obtain ⟨h1, h2, h3⟩ := hf i w
    obtain ⟨ih1, ih2, ih3⟩ := ih (f i w).2
    simp only [goEach, List.length_cons, List.replicate_succ]
    rw [ih1, ih2, ih3, h1, h2, h3]
    exact ⟨rfl, rfl, rfl⟩

/-! ## The goroutine bodies -/

/-- The parsing loop appends the advertisement list of the specification to its
accumulator. -/
theorem announceLoop_fst (parse : Parser) (cidrs : List String) (acc : List Advertisement)
    (log : List LogEntry) :
    (announceLoop parse cidrs acc log).1 = acc ++ advertsOf parse cidrs := by
  induction cidrs generalizing acc log with
  | nil => simp [announceLoop, advertsOf]
  | cons c cs ih =>
    unfold announceLoop
    cases h : parse c with
    | error e =>
      simp only []
      rw [ih]
      simp [advertsOf, advertOf, h]
    | ok parsed =>
      simp only []
      rw [ih]
      simp [advertsOf, advertOf, h]

theorem withDrawTask_callsSet : CallsSet emptyAdverts (fun _ => ()) withDrawTask := by
  intro i w
  unfold withDrawTask
  simp only []
  split <;> exact ⟨trivial, rfl, rfl⟩

theorem announceTask_callsSet (parse : Parser) (cidrs : List String)
    (h : advertsOf parse cidrs ≠ []) :
    CallsSet (advertsOf parse cidrs) id (announceTask parse cidrs) := by
  intro i w
  have hlen : ¬ (advertsOf parse cidrs).length = 0 := fun e => h (List.length_eq_zero.mp e)
  obtain ⟨h1, h2, h3⟩ := Set_withLog i (advertsOf parse cidrs) w
    (announceLoop parse cidrs [] w.log).2
  have hann : announce parse i cidrs w =
      Set i (advertsOf parse cidrs) { w with log := (announceLoop parse cidrs [] w.log).2 } := by
    unfold announce
    simp only [announceLoop_fst, List.nil_append, if_neg hlen]
  unfold announceTask
  rw [hann]
  cases hr : (Set i (advertsOf parse cidrs)
      { w with log := (announceLoop parse cidrs [] w.log).2 }).1 with
  | none =>
    simp only [id]
    rw [← Set_fst, ← h1, hr, ← h2, ← h3]
    exact ⟨rfl, rfl, rfl⟩
  | some e =>
    simp only [id]
    rw [← Set_fst, ← h1, hr, ← h2, ← h3]
    exact ⟨rfl, rfl, rfl⟩

theorem announceTask_silent (parse : Parser) (cidrs : List String)
    (h : advertsOf parse cidrs = []) :
    Silent (some noAdverts) (announceTask parse cidrs) := by
  intro i w
  have hann : announce parse i cidrs w =
      (some noAdverts, { w with log := (announceLoop parse cidrs [] w.log).2 }) := by
    unfold announce
    simp only [announceLoop_fst, List.nil_append, h, List.length_nil, if_true]
    rfl
  unfold announceTask
  rw [hann]
  exact ⟨rfl, rfl, rfl⟩

/-! ## The advertisement list -/

theorem advertsOf_ne_nil (parse : Parser) (cidrs : List String) :
    advertsOf parse cidrs ≠ [] ↔ ∃ c ∈ cidrs, parses parse c = true := by
  induction cidrs with
  | nil => simp [advertsOf]
  | cons c cs ih =>
    unfold advertsOf at ih ⊢
    cases h : advertOf parse c with
    | none => simp [List.filterMap_cons, h, parses, ih]
    | some a => simp [List.filterMap_cons, h, parses]

theorem advertsOf_eq_nil (parse : Parser) (cidrs : List String) :
    advertsOf parse cidrs = [] ↔ ∀ c ∈ cidrs, parses parse c = false := by
  have h := advertsOf_ne_nil parse cidrs
  constructor
  · intro he c hc
    cases hp : parses parse c with
    | false => rfl
    | true => exact absurd he (h.mpr ⟨c, hc, hp⟩)
  · intro hall
    by_contra hne
    obtain ⟨c, hc, hp⟩ := h.mp hne
    rw [hall c hc] at hp
    exact Bool.noConfusion hp

theorem advertsOf_filter (parse : Parser) (cidrs : List String) :
    advertsOf parse (cidrs.filter (parses parse)) = advertsOf parse cidrs := by
  induction cidrs with
  | nil => rfl
  | cons c cs ih =>
    unfold advertsOf at ih ⊢
    cases h : advertOf parse c with
    | none => simp [List.filter_cons, List.filterMap_cons, h, parses, ih]
    | some a => simp [List.filter_cons, List.filterMap_cons, h, parses, ih]

theorem advertsOf_map_some (parse : Parser) (cidrs : List String) :
    (advertsOf parse cidrs).map some = (cidrs.filter (parses parse)).map (advertOf parse) := by
  induction cidrs with
  | nil => rfl
  | cons c cs ih =>
    unfold advertsOf at ih ⊢
    cases h : advertOf parse c with
    | none => simp [List.filter_cons, List.filterMap_cons, h, parses, ih]
    | some a => simp [List.filter_cons, List.filterMap_cons, h, parses, ih]

/-! ## Whole runs -/

theorem callsMade_append (w w1 : World) (l : List SetCall) (h : w1.trace = w.trace ++ l) :
    callsMade w w1 = l := by
  unfold callsMade
  rw [h, List.drop_left]

theorem received_push (w w1 : World) (advs : List Advertisement) (i : Nat)
    (hi : i < w.peers.length) (h : w1.peers = w.peers.map (push advs)) :
    received w1 i = received w i ++ [advs] := by
  unfold received
  rw [h, List.getElem?_map, List.getElem?_eq_getElem hi]
  rfl

theorem run_callsSet {ρ : Type} (advs : List Advertisement) (g : Option Error → ρ)
    (f : Nat → World → ρ × World) (hf : CallsSet advs g f) (sched : List Nat) (w : World) :
    (goEach f (completionOrder sched (PeerSessions w)) w).1 =
      (completionOrder sched (PeerSessions w)).map (fun i => g (outcome w i advs)) ∧
    (goEach f (completionOrder sched (PeerSessions w)) w).2.trace =
      w.trace ++ (completionOrder sched (PeerSessions w)).map
        (fun i => ⟨i, advs, outcome w i advs⟩) ∧
    (goEach f (completionOrder sched (PeerSessions w)) w).2.peers = w.peers.map (push advs) := by
  obtain ⟨h1, h2, _, h4⟩ := goEach_callsSet advs g f hf (completionOrder sched (PeerSessions w)) w
    (order_nodup sched w) (fun i hi => (mem_order sched w i).mp hi)
  refine ⟨h1, h2, ?_⟩
  apply List.ext_getElem?
  intro j
  rw [h4 j, List.getElem?_map]
  by_cases hj : j < w.peers.length
  · rw [if_pos ((mem_order sched w j).mpr hj)]
  · rw [if_neg (fun hm => hj ((mem_order sched w j).mp hm)),
      List.getElem?_eq_none (by omega)]
    rfl

theorem announceGo_some (parse : Parser) (sched : List Nat) (cidrs : List String) (w : World)
    (h : advertsOf parse cidrs ≠ []) :
    (announcePodCIDRsGo parse sched cidrs w).1 =
      (completionOrder sched (PeerSessions w)).map
        (fun i => outcome w i (advertsOf parse cidrs)) ∧
    (announcePodCIDRsGo parse sched cidrs w).2.trace =
      w.trace ++ (completionOrder sched (PeerSessions w)).map
        (fun i => ⟨i, advertsOf parse cidrs, outcome w i (advertsOf parse cidrs)⟩) ∧
    (announcePodCIDRsGo parse sched cidrs w).2.peers =
      w.peers.map (push (advertsOf parse cidrs)) :=
  run_callsSet (advertsOf parse cidrs) id (announceTask parse cidrs)
    (announceTask_callsSet parse cidrs h) sched w

theorem announceGo_none (parse : Parser) (sched : List Nat) (cidrs : List String) (w : World)
    (h : advertsOf parse cidrs = []) :
    (announcePodCIDRsGo parse sched cidrs w).1 =
      List.replicate w.peers.length (some noAdverts) ∧
    (announcePodCIDRsGo parse sched cidrs w).2.trace = w.trace ∧
    (announcePodCIDRsGo parse sched cidrs w).2.peers = w.peers := by
  have := goEach_silent (some noAdverts) (announceTask parse cidrs)
    (announceTask_silent parse cidrs h) (completionOrder sched (PeerSessions w)) w
  rw [order_length] at this
  exact ⟨this.1, this.2.2, this.2.1⟩

theorem withDraw_run (sched : List Nat) (w : World) :
    (withDraw sched w).2.trace =
      w.trace ++ (completionOrder sched (PeerSessions w)).map
        (fun i => ⟨i, [], outcome w i []⟩) ∧
    (withDraw sched w).2.peers = w.peers.map (push []) :=
  (run_callsSet emptyAdverts (fun _ => ()) withDrawTask withDrawTask_callsSet sched w).2

theorem map_sess_order (order : List Nat) (advs : List Advertisement)
    (e : Nat → Option Error) :
    (order.map (fun i => (⟨i, advs, e i⟩ : SetCall))).map (fun c => c.sess) = order := by
  induction order with
  | nil => rfl
  | cons i rest ih => simp only [List.map_cons, ih]

theorem wait_eq_none (order : List Nat) (e : Nat → Option Error) :
    errgroup.Wait (order.map e) = none ↔ ∀ i ∈ order, e i = none := by
  unfold errgroup.Wait
  induction order with
  | nil => simp
  | cons i rest ih =>
    cases h : e i with
    | none => simp [List.findSome?_cons, h, ih]
    | some x => simp [List.findSome?_cons, h]

/-- With a failing task, `errgroup.Wait` returns the error of the first failing
task in the order given. -/
theorem wait_first (order : List Nat) (e : Nat → Option Error)
    (h : ∃ i ∈ order, e i ≠ none) :
    ∃ pre i post, order = pre ++ i :: post ∧ (∀ k ∈ pre, e k = none) ∧ e i ≠ none ∧
      errgroup.Wait (order.map e) = e i := by
  unfold errgroup.Wait
  induction order with
  | nil =>
    obtain ⟨i, hi, _⟩ := h
    exact absurd hi (List.not_mem_nil i)
  | cons a rest ih =>
    cases ha : e a with
    | some x =>
      exact ⟨[], a, rest, rfl, fun k hk => absurd hk (List.not_mem_nil k),
        by rw [ha]; exact Option.noConfusion, by simp [List.findSome?_cons, ha]⟩
    | none =>
      have h1 : ∃ i ∈ rest, e i ≠ none := by
        obtain ⟨i, hi, hne⟩ := h
        rcases List.mem_cons.mp hi with rfl | hi1
        · exact absurd ha hne
        · exact ⟨i, hi1, hne⟩
      obtain ⟨pre, i, post, hsplit, hpre, hne, hw⟩ := ih h1
      refine ⟨a :: pre, i, post, by rw [hsplit]; rfl, ?_, hne, ?_⟩
      · intro k hk
        rcases List.mem_cons.mp hk with rfl | hk1
        · exact ha
        · exact hpre k hk1
      · simp only [List.map_cons, List.findSome?_cons, ha, id]
        exact hw

theorem wait_replicate (n : Nat) (x : Error) :
    errgroup.Wait (List.replicate n (some x)) = if n = 0 then none else some x := by
  unfold errgroup.Wait
  cases n with
  | zero => rfl
  | succ n => simp [List.replicate_succ, List.findSome?_cons]

theorem announce_calls (parse : Parser) (sched hand : List Nat) (cidrs : List String)
    (w : World) (h : advertsOf parse cidrs ≠ []) :
    callsMade w (announcePodCIDRs parse sched hand cidrs w).2 =
      (completionOrder sched (PeerSessions w)).map
        (fun i => ⟨i, advertsOf parse cidrs, outcome w i (advertsOf parse cidrs)⟩) :=
  callsMade_append w _ _ (announceGo_some parse sched cidrs w h).2.1

theorem announce_fst (parse : Parser) (sched hand : List Nat) (cidrs : List String)
    (w : World) (h : advertsOf parse cidrs ≠ []) :
    (announcePodCIDRs parse sched hand cidrs w).1 =
      errgroup.Wait ((completionOrder hand (completionOrder sched (PeerSessions w))).map
        (fun i => outcome w i (advertsOf parse cidrs))) := by
  unfold announcePodCIDRs
  simp only []
  rw [(announceGo_some parse sched cidrs w h).1, completionOrder_map]

theorem announce_fst_none (parse : Parser) (sched hand : List Nat) (cidrs : List String)
    (w : World) (h : advertsOf parse cidrs = []) :
    (announcePodCIDRs parse sched hand cidrs w).1 =
      if w.peers.length = 0 then none else some noAdverts := by
  unfold announcePodCIDRs
  simp only []
  rw [(announceGo_none parse sched cidrs w h).1, completionOrder_replicate, wait_replicate]

theorem withDraw_calls (sched : List Nat) (w : World) :
    callsMade w (withDraw sched w).2 =
      (completionOrder sched (PeerSessions w)).map (fun i => ⟨i, [], outcome w i []⟩) :=
  callsMade_append w _ _ (withDraw_run sched w).1

theorem announce_eq_set (parse : Parser) (i : Nat) (cidrs : List String) (w : World)
    (h : advertsOf parse cidrs ≠ []) :
    announce parse i cidrs w =
      Set i (advertsOf parse cidrs) { w with log := (announceLoop parse cidrs [] w.log).2 } := by
  have hlen : ¬ (advertsOf parse cidrs).length = 0 := fun e => h (List.length_eq_zero.mp e)
  unfold announce
  simp only [announceLoop_fst, List.nil_append, if_neg hlen]

theorem announce_eq_err (parse : Parser) (i : Nat) (cidrs : List String) (w : World)
    (h : advertsOf parse cidrs = []) :
    announce parse i cidrs w =
      (some noAdverts, { w with log := (announceLoop parse cidrs [] w.log).2 }) := by
  unfold announce
  simp only [announceLoop_fst, List.nil_append, h, List.length_nil, if_true]
  rfl

theorem callsMade_self (w w1 : World) (h : w1.trace = w.trace) : callsMade w w1 = [] := by
  unfold callsMade
  rw [h, List.drop_length]

theorem announce_one_calls (parse : Parser) (i : Nat) (cidrs : List String) (w : World) :
    callsMade w (announce parse i cidrs w).2 =
      if advertsOf parse cidrs ≠ [] ∧ i < w.peers.length then
        [⟨i, advertsOf parse cidrs, outcome w i (advertsOf parse cidrs)⟩]
      else [] := by
  by_cases h : advertsOf parse cidrs = []
  · rw [announce_eq_err parse i cidrs w h, if_neg (fun hc => hc.1 h)]
    exact callsMade_self w _ rfl
  · rw [announce_eq_set parse i cidrs w h]
    by_cases hi : i < w.peers.length
    · rw [if_pos ⟨h, hi⟩]
      apply callsMade_append
      rw [(Set_withLog i _ w _).2.2, Set_trace i _ w hi]
    · rw [if_neg (fun hc => hi hc.2)]
      apply callsMade_self
      rw [(Set_withLog i _ w _).2.2]
      unfold Set
      rw [List.getElem?_eq_none (by omega)]

theorem announce_determined (parse : Parser) (sched hand : List Nat) (c1 c2 : List String)
    (w : World) (h : advertsOf parse c1 = advertsOf parse c2) :
    (announcePodCIDRs parse sched hand c1 w).1 = (announcePodCIDRs parse sched hand c2 w).1 ∧
    (announcePodCIDRs parse sched hand c1 w).2.trace =
      (announcePodCIDRs parse sched hand c2 w).2.trace ∧
    (announcePodCIDRs parse sched hand c1 w).2.peers =
      (announcePodCIDRs parse sched hand c2 w).2.peers := by
  by_cases hn : advertsOf parse c2 = []
  · obtain ⟨a1, a2, a3⟩ := announceGo_none parse sched c1 w (h.trans hn)
    obtain ⟨b1, b2, b3⟩ := announceGo_none parse sched c2 w hn
    unfold announcePodCIDRs
    simp only []
    rw [a1, a2, a3, b1, b2, b3]
    exact ⟨rfl, rfl, rfl⟩
  · obtain ⟨a1, a2, a3⟩ := announceGo_some parse sched c1 w (fun e => hn (h ▸ e))
    obtain ⟨b1, b2, b3⟩ := announceGo_some parse sched c2 w hn
    unfold announcePodCIDRs
    simp only []
    rw [a1, a2, a3, b1, b2, b3, h]
    exact ⟨rfl, rfl, rfl⟩

theorem announce_peers_length (parse : Parser) (sched hand : List Nat) (cidrs : List String)
    (w : World) :
    (announcePodCIDRs parse sched hand cidrs w).2.peers.length = w.peers.length := by
  by_cases hn : advertsOf parse cidrs = []
  · have := (announceGo_none parse sched cidrs w hn).2.2
    show (announcePodCIDRsGo parse sched cidrs w).2.peers.length = _
    rw [this]
  · have := (announceGo_some parse sched cidrs w hn).2.2
    show (announcePodCIDRsGo parse sched cidrs w).2.peers.length = _
    rw [this, List.length_map]

theorem announce_received (parse : Parser) (sched hand : List Nat) (cidrs : List String)
    (w : World) (i : Nat) (hi : i < w.peers.length) :
    received (announcePodCIDRs parse sched hand cidrs w).2 i =
      received w i ++ (if advertsOf parse cidrs = [] then [] else [advertsOf parse cidrs]) := by
  by_cases hn : advertsOf parse cidrs = []
  · have hp : (announcePodCIDRs parse sched hand cidrs w).2.peers = w.peers :=
      (announceGo_none parse sched cidrs w hn).2.2
    rw [if_pos hn, List.append_nil]
    unfold received
    rw [hp]
  · rw [if_neg hn]
    exact received_push w _ _ i hi (announceGo_some parse sched cidrs w hn).2.2

theorem newBatches_append (w w1 : World) (i : Nat) (l : List (List Advertisement))
    (h : received w1 i = received w i ++ l) : newBatches w w1 i = l := by
  unfold newBatches
  rw [h, List.drop_left]

theorem map_advs_order (order : List Nat) (advs : List Advertisement)
    (e : Nat → Option Error) :
    (order.map (fun i => (⟨i, advs, e i⟩ : SetCall))).map (fun c => c.advs) =
      List.replicate order.length advs := by
  induction order with
  | nil => rfl
  | cons i rest ih => simp only [List.map_cons, ih, List.length_cons, List.replicate_succ]

theorem announce_batches (parse : Parser) (sched hand : List Nat) (cidrs : List String)
    (w : World) :
    (callsMade w (announcePodCIDRs parse sched hand cidrs w).2).map (fun c => c.advs) =
      if advertsOf parse cidrs = [] then []
      else List.replicate w.peers.length (advertsOf parse cidrs) := by
  by_cases hn : advertsOf parse cidrs = []
  · have hnone : callsMade w (announcePodCIDRs parse sched hand cidrs w).2 = [] :=
      callsMade_self w _ (announceGo_none parse sched cidrs w hn).2.1
    rw [hnone, if_pos hn]
    rfl
  · rw [announce_calls parse sched hand cidrs w hn, if_neg hn, map_advs_order, order_length]

/-! ## The claims -/

/-- C1: when at least one entry of the prefix list parses, `announcePodCIDRs`
calls `Set` exactly once on every one of the N peer sessions (N ≥ 0), each time
with the same non-empty advertisement list, whatever the individual calls
return; it returns nil if and only if every one of those calls returned nil,
and in particular it returns nil when there is no session. -/
theorem announcePodCIDRs_fanout (parse : Parser) (sched hand : List Nat) (cidrs : List String)
    (w : World) (h : ∃ c ∈ cidrs, parses parse c = true) :
    advertsOf parse cidrs ≠ [] ∧
    (announcePodCIDRs parse sched hand cidrs w).2.trace =
      w.trace ++ callsMade w (announcePodCIDRs parse sched hand cidrs w).2 ∧
    ((callsMade w (announcePodCIDRs parse sched hand cidrs w).2).map (fun c => c.sess)).Perm
      (PeerSessions w) ∧
    (∀ c ∈ callsMade w (announcePodCIDRs parse sched hand cidrs w).2,
      c.advs = advertsOf parse cidrs ∧ c.err = outcome w c.sess (advertsOf parse cidrs)) ∧
    (∀ i, i < w.peers.length →
      received (announcePodCIDRs parse sched hand cidrs w).2 i =
        received w i ++ [advertsOf parse cidrs]) ∧
    ((announcePodCIDRs parse sched hand cidrs w).1 = none ↔
      ∀ c ∈ callsMade w (announcePodCIDRs parse sched hand cidrs w).2, c.err = none) ∧
    (w.peers = [] → (announcePodCIDRs parse sched hand cidrs w).1 = none) := by
  have hne : advertsOf parse cidrs ≠ [] := (advertsOf_ne_nil parse cidrs).mpr h
  have hcalls := announce_calls parse sched hand cidrs w hne
  have hfst := announce_fst parse sched hand cidrs w hne
  obtain ⟨_, htr, hpeers⟩ := announceGo_some parse sched cidrs w hne
  have hnil : (announcePodCIDRs parse sched hand cidrs w).1 = none ↔
      ∀ i ∈ completionOrder sched (PeerSessions w),
        outcome w i (advertsOf parse cidrs) = none := by
    rw [hfst, wait_eq_none]
    constructor
    · intro hall i hi
      exact hall i ((completionOrder_perm hand _).mem_iff.mpr hi)
    · intro hall i hi
      exact hall i ((completionOrder_perm hand _).mem_iff.mp hi)
  refine ⟨hne, ?_, ?_, ?_, ?_, ?_, ?_⟩
  · rw [hcalls]
    exact htr
  · rw [hcalls, map_sess_order]
    exact completionOrder_perm sched _
  · intro c hc
    rw [hcalls] at hc
    obtain ⟨i, _, rfl⟩ := List.mem_map.mp hc
    exact ⟨rfl, rfl⟩
  · intro i hi
    exact received_push w _ _ i hi hpeers
  · rw [hnil, hcalls]
    constructor
    · intro hall c hc
      obtain ⟨i, hi, rfl⟩ := List.mem_map.mp hc
      exact hall i hi
    · intro hall i hi
      exact hall ⟨i, advertsOf parse cidrs, outcome w i (advertsOf parse cidrs)⟩
        (List.mem_map.mpr ⟨i, hi, rfl⟩)
  · intro hempty
    rw [hnil]
    intro i hi
    have := (mem_order sched w i).mp hi
    rw [hempty] at this
    exact absurd this (Nat.not_lt_zero i)

/-- Instance of C1 on the sample state: one of three sessions accepts, two
reject, and all three are called. -/
theorem announcePodCIDRs_fanout_witness :
    (∃ c ∈ sampleCidrs, parses sampleParse c = true) ∧
    ((callsMade sampleWorld (announcePodCIDRs sampleParse [2] [1] sampleCidrs sampleWorld).2).map
      (fun c => c.sess)).Perm (PeerSessions sampleWorld) ∧
    (∀ c ∈ callsMade sampleWorld (announcePodCIDRs sampleParse [2] [1] sampleCidrs sampleWorld).2,
      c.advs = advertsOf sampleParse sampleCidrs ∧
      c.err = outcome sampleWorld c.sess (advertsOf sampleParse sampleCidrs)) :=
  ⟨⟨"10.0.0.0/24", by decide, by decide⟩,
   (announcePodCIDRs_fanout sampleParse [2] [1] sampleCidrs sampleWorld
      ⟨"10.0.0.0/24", by decide, by decide⟩).2.2.1,
   (announcePodCIDRs_fanout sampleParse [2] [1] sampleCidrs sampleWorld
      ⟨"10.0.0.0/24", by decide, by decide⟩).2.2.2.1⟩

/-- C2 fails as stated: with no peer session and a prefix list holding only a
malformed entry, `announcePodCIDRs` returns nil, not the error. -/
theorem announcePodCIDRs_noSessions_cex :
    (∀ c ∈ ["bad-cidr"], parses sampleParse c = false) ∧
    (announcePodCIDRs sampleParse [] [1] ["bad-cidr"] (worldOf [])).1 = none ∧
    (announcePodCIDRs sampleParse [] [1] ["bad-cidr"] (worldOf [])).1 ≠ some noAdverts := by
  decide

/-- C2, amended: when no entry of the prefix list parses (the list may be
empty), `announcePodCIDRs` calls `Set` on no session and leaves every session
as it was; with at least one peer session it returns the "no BGP
advertisements made" error, and with no peer session it returns nil. -/
theorem announcePodCIDRs_nothingParses (parse : Parser) (sched hand : List Nat)
    (cidrs : List String) (w : World) (h : ∀ c ∈ cidrs, parses parse c = false) :
    callsMade w (announcePodCIDRs parse sched hand cidrs w).2 = [] ∧
    (announcePodCIDRs parse sched hand cidrs w).2.trace = w.trace ∧
    (announcePodCIDRs parse sched hand cidrs w).2.peers = w.peers ∧
    (w.peers ≠ [] → (announcePodCIDRs parse sched hand cidrs w).1 = some noAdverts) ∧
    (w.peers = [] → (announcePodCIDRs parse sched hand cidrs w).1 = none) := by
  have hnil : advertsOf parse cidrs = [] := (advertsOf_eq_nil parse cidrs).mpr h
  obtain ⟨hres, htr, hpeers⟩ := announceGo_none parse sched cidrs w hnil
  have hfst := announce_fst_none parse sched hand cidrs w hnil
  refine ⟨?_, htr, hpeers, ?_, ?_⟩
  · apply callsMade_append
    rw [List.append_nil]
    exact htr
  · intro hne
    rw [hfst, if_neg (fun e => hne (List.length_eq_zero.mp e))]
  · intro he
    rw [hfst, he]
    rfl

/-- Instance of the amended C2 on the sample state with a malformed prefix. -/
theorem announcePodCIDRs_nothingParses_witness :
    (∀ c ∈ ["bad-cidr"], parses sampleParse c = false) ∧
    callsMade sampleWorld (announcePodCIDRs sampleParse [1] [1] ["bad-cidr"] sampleWorld).2 = [] ∧
    (announcePodCIDRs sampleParse [1] [1] ["bad-cidr"] sampleWorld).1 = some noAdverts :=
  ⟨by decide,
   (announcePodCIDRs_nothingParses sampleParse [1] [1] ["bad-cidr"] sampleWorld (by decide)).1,
   (announcePodCIDRs_nothingParses sampleParse [1] [1] ["bad-cidr"] sampleWorld
      (by decide)).2.2.2.1 (by simp [sampleWorld, worldOf])⟩

/-- C3: `withDraw` returns nil and calls `Set` exactly N times, once on each of
the N peer sessions (N ≥ 0), each time with the empty advertisement list,
whatever the individual calls return. -/
theorem withDraw_fanout (sched : List Nat) (w : World) :
    (withDraw sched w).1 = none ∧
    (withDraw sched w).2.trace = w.trace ++ callsMade w (withDraw sched w).2 ∧
    (callsMade w (withDraw sched w).2).length = w.peers.length ∧
    ((callsMade w (withDraw sched w).2).map (fun c => c.sess)).Perm (PeerSessions w) ∧
    (∀ c ∈ callsMade w (withDraw sched w).2, c.advs = [] ∧ c.err = outcome w c.sess []) ∧
    (∀ i, i < w.peers.length → received (withDraw sched w).2 i = received w i ++ [[]]) := by
  have hcalls := withDraw_calls sched w
  obtain ⟨htr, hpeers⟩ := withDraw_run sched w
  refine ⟨rfl, ?_, ?_, ?_, ?_, ?_⟩
  · rw [hcalls]
    exact htr
  · rw [hcalls, List.length_map, order_length]
  · rw [hcalls, map_sess_order]
    exact completionOrder_perm sched _
  · intro c hc
    rw [hcalls] at hc
    obtain ⟨i, _, rfl⟩ := List.mem_map.mp hc
    exact ⟨rfl, rfl⟩
  · intro i hi
    exact received_push w _ _ i hi hpeers

/-- Instance of C3 on the sample state, where two of the three calls fail. -/
theorem withDraw_fanout_witness :
    (withDraw [1, 1] sampleWorld).1 = none ∧
    (callsMade sampleWorld (withDraw [1, 1] sampleWorld).2).length = 3 ∧
    (∀ c ∈ callsMade sampleWorld (withDraw [1, 1] sampleWorld).2,
      c.advs = [] ∧ c.err = outcome sampleWorld c.sess []) :=
  ⟨(withDraw_fanout [1, 1] sampleWorld).1,
   (withDraw_fanout [1, 1] sampleWorld).2.2.1,
   (withDraw_fanout [1, 1] sampleWorld).2.2.2.2.1⟩

/-- C4: the advertisement list `announce` passes to `Set` is the list of the
parsed networks of the entries that parse, in input order, one advertisement
per such entry (malformed entries skipped, duplicates kept, nothing added); on
`["10.0.0.0/24", "bad-cidr", "10.0.1.0/24"]` it is the two parsed networks. -/
theorem announce_adverts (parse : Parser) (sess : Nat) (cidrs : List String) (w : World)
    (hs : sess < w.peers.length) :
    (announceLoop parse cidrs [] w.log).1 = advertsOf parse cidrs ∧
    (advertsOf parse cidrs).map some = (cidrs.filter (parses parse)).map (advertOf parse) ∧
    (advertsOf parse cidrs).length = (cidrs.filter (parses parse)).length ∧
    callsMade w (announce parse sess cidrs w).2 =
      (if advertsOf parse cidrs = [] then []
       else [⟨sess, advertsOf parse cidrs, outcome w sess (advertsOf parse cidrs)⟩]) ∧
    (∀ a e b, parse "10.0.0.0/24" = Except.ok a → parse "bad-cidr" = Except.error e →
      parse "10.0.1.0/24" = Except.ok b →
      callsMade w (announce parse sess ["10.0.0.0/24", "bad-cidr", "10.0.1.0/24"] w).2 =
        [⟨sess, [{ Prefix := a.IPNet }, { Prefix := b.IPNet }],
          outcome w sess [{ Prefix := a.IPNet }, { Prefix := b.IPNet }]⟩]) := by
  have hcalls : ∀ cs, callsMade w (announce parse sess cs w).2 =
      (if advertsOf parse cs = [] then []
       else [⟨sess, advertsOf parse cs, outcome w sess (advertsOf parse cs)⟩]) := by
    intro cs
    rw [announce_one_calls]
    by_cases h : advertsOf parse cs = []
    · rw [if_neg (fun hc => hc.1 h), if_pos h]
    · rw [if_pos ⟨h, hs⟩, if_neg h]
  refine ⟨?_, advertsOf_map_some parse cidrs, ?_, hcalls cidrs, ?_⟩
  · rw [announceLoop_fst, List.nil_append]
  · have := congrArg List.length (advertsOf_map_some parse cidrs)
    simpa using this
  · intro a e b ha he hb
    have hA : advertsOf parse ["10.0.0.0/24", "bad-cidr", "10.0.1.0/24"] =
        [{ Prefix := a.IPNet }, { Prefix := b.IPNet }] := by
      simp [advertsOf, advertOf, ha, he, hb]
    rw [hcalls, hA, if_neg (List.cons_ne_nil _ _)]

/-- Instance of C4 with the sample parser on the scenario of the specification. -/
theorem announce_adverts_witness :
    (1 < sampleWorld.peers.length) ∧
    callsMade sampleWorld (announce sampleParse 1 sampleCidrs sampleWorld).2 =
      [⟨1, [{ Prefix := ⟨[10, 0, 0, 0], [255, 255, 255, 0]⟩ },
            { Prefix := ⟨[10, 0, 1, 0], [255, 255, 255, 0]⟩ }],
        some (Error.foreign ⟨"peer 1 down"⟩)⟩] :=
  ⟨by decide,
   (announce_adverts sampleParse 1 sampleCidrs sampleWorld (by decide)).2.2.2.2
      ⟨⟨[10, 0, 0, 0], [255, 255, 255, 0]⟩⟩ ⟨"invalid CIDR address: bad-cidr"⟩
      ⟨⟨[10, 0, 1, 0], [255, 255, 255, 0]⟩⟩ rfl rfl rfl⟩

/-- C5: a malformed prefix is never propagated: `announcePodCIDRs` on a prefix
list makes the same `Set` calls with the same arguments, leaves the sessions
in the same state and returns the same result as on that list with every
entry that fails to parse removed. -/
theorem announcePodCIDRs_dropsMalformed (parse : Parser) (sched hand : List Nat)
    (cidrs : List String) (w : World) :
    (announcePodCIDRs parse sched hand cidrs w).1 =
      (announcePodCIDRs parse sched hand (cidrs.filter (parses parse)) w).1 ∧
    callsMade w (announcePodCIDRs parse sched hand cidrs w).2 =
      callsMade w (announcePodCIDRs parse sched hand (cidrs.filter (parses parse)) w).2 ∧
    (announcePodCIDRs parse sched hand cidrs w).2.trace =
      (announcePodCIDRs parse sched hand (cidrs.filter (parses parse)) w).2.trace ∧
    (announcePodCIDRs parse sched hand cidrs w).2.peers =
      (announcePodCIDRs parse sched hand (cidrs.filter (parses parse)) w).2.peers := by
  obtain ⟨h1, h2, h3⟩ := announce_determined parse sched hand cidrs (cidrs.filter (parses parse)) w
    (advertsOf_filter parse cidrs).symm
  refine ⟨h1, ?_, h2, h3⟩
  unfold callsMade
  rw [h2]

/-- Instance of C5 on the sample state and the sample prefix list. -/
theorem announcePodCIDRs_dropsMalformed_witness :
    sampleCidrs.filter (parses sampleParse) = ["10.0.0.0/24", "10.0.1.0/24"] ∧
    (announcePodCIDRs sampleParse [1] [1] sampleCidrs sampleWorld).1 =
      (announcePodCIDRs sampleParse [1] [1] (sampleCidrs.filter (parses sampleParse)) sampleWorld).1 ∧
    callsMade sampleWorld (announcePodCIDRs sampleParse [1] [1] sampleCidrs sampleWorld).2 =
      callsMade sampleWorld
        (announcePodCIDRs sampleParse [1] [1] (sampleCidrs.filter (parses sampleParse))
          sampleWorld).2 :=
  ⟨by decide,
   (announcePodCIDRs_dropsMalformed sampleParse [1] [1] sampleCidrs sampleWorld).1,
   (announcePodCIDRs_dropsMalformed sampleParse [1] [1] sampleCidrs sampleWorld).2.1⟩

/-- C6: every `Set` call made by `announcePodCIDRs`, and every `Set` call made
by `announce`, carries a non-empty advertisement list, so none of them is a
withdrawal; the `Set` calls made by `withDraw` all carry the empty list. -/
theorem announce_never_withdraws (parse : Parser) (sched hand : List Nat) (cidrs : List String)
    (w : World) :
    (∀ c ∈ callsMade w (announcePodCIDRs parse sched hand cidrs w).2, c.advs ≠ []) ∧
    (∀ sess, ∀ c ∈ callsMade w (announce parse sess cidrs w).2, c.advs ≠ []) ∧
    (∀ c ∈ callsMade w (withDraw sched w).2, c.advs = []) := by
  refine ⟨?_, ?_, ?_⟩
  · intro c hc
    by_cases hn : advertsOf parse cidrs = []
    · have hnone : callsMade w (announcePodCIDRs parse sched hand cidrs w).2 = [] :=
        callsMade_self w _ (announceGo_none parse sched cidrs w hn).2.1
      rw [hnone] at hc
      exact absurd hc (List.not_mem_nil c)
    · rw [announce_calls parse sched hand cidrs w hn] at hc
      obtain ⟨i, _, rfl⟩ := List.mem_map.mp hc
      exact hn
  · intro sess c hc
    rw [announce_one_calls] at hc
    by_cases hcond : advertsOf parse cidrs ≠ [] ∧ sess < w.peers.length
    · rw [if_pos hcond] at hc
      rw [List.mem_singleton.mp hc]
      exact hcond.1
    · rw [if_neg hcond] at hc
      exact absurd hc (List.not_mem_nil c)
  · intro c hc
    rw [withDraw_calls] at hc
    obtain ⟨i, _, rfl⟩ := List.mem_map.mp hc
    rfl

/-- Instance of C6 on the sample state. -/
theorem announce_never_withdraws_witness :
    (∀ c ∈ callsMade sampleWorld (announcePodCIDRs sampleParse [1] [1] sampleCidrs sampleWorld).2,
      c.advs ≠ []) ∧
    (∀ c ∈ callsMade sampleWorld (withDraw [1] sampleWorld).2, c.advs = []) :=
  ⟨(announce_never_withdraws sampleParse [1] [1] sampleCidrs sampleWorld).1,
   (announce_never_withdraws sampleParse [1] [1] sampleCidrs sampleWorld).2.2⟩

/-- C7 fails as stated: with three rejecting sessions the `Set` calls are made
on sessions 0, 2, 1 in that order, so the first failing `Set` call is that of
session 0; the error of session 2 reaches the group first, and it is the one
`announcePodCIDRs` returns. -/
theorem announcePodCIDRs_firstCall_cex :
    (∃ c ∈ sampleCidrs, parses sampleParse c = true) ∧
    (callsMade sampleDown (announcePodCIDRs sampleParse [0, 1] [1] sampleCidrs sampleDown).2).map
        (fun c => (c.sess, c.err)) =
      [(0, some (Error.foreign ⟨"peer 0 down"⟩)), (2, some (Error.foreign ⟨"peer 2 down"⟩)),
       (1, some (Error.foreign ⟨"peer 1 down"⟩))] ∧
    (announcePodCIDRs sampleParse [0, 1] [1] sampleCidrs sampleDown).1 =
      some (Error.foreign ⟨"peer 2 down"⟩) ∧
    (announcePodCIDRs sampleParse [0, 1] [1] sampleCidrs sampleDown).1 ≠
      some (Error.foreign ⟨"peer 0 down"⟩) := by
  decide

/-- C7, amended: when at least one entry parses and at least one session's
`Set` call fails, `announcePodCIDRs` returns the error of one of the failing
`Set` calls, namely the first non-nil error in the order in which the returned
errors reach the group (which need not be the order of the `Set` calls).  The
result is that session's own error value, passed on as it is: it is not an
error created by `errors.New`.  The `Set` calls of all sessions are made. -/
theorem announcePodCIDRs_firstHandedError (parse : Parser) (sched hand : List Nat)
    (cidrs : List String) (w : World) (h : ∃ c ∈ cidrs, parses parse c = true)
    (hfail : ∃ i, i < w.peers.length ∧ outcome w i (advertsOf parse cidrs) ≠ none) :
    (announcePodCIDRsGo parse sched cidrs w).1 =
      (callsMade w (announcePodCIDRs parse sched hand cidrs w).2).map (fun c => c.err) ∧
    ((callsMade w (announcePodCIDRs parse sched hand cidrs w).2).map (fun x => x.sess)).Perm
      (PeerSessions w) ∧
    ∃ pre c post,
      handedOver hand (callsMade w (announcePodCIDRs parse sched hand cidrs w).2) =
        pre ++ c :: post ∧
      (∀ x ∈ pre, x.err = none) ∧
      c ∈ callsMade w (announcePodCIDRs parse sched hand cidrs w).2 ∧
      c.err = outcome w c.sess (advertsOf parse cidrs) ∧
      (announcePodCIDRs parse sched hand cidrs w).1 = c.err ∧
      (∃ e, (announcePodCIDRs parse sched hand cidrs w).1 = some (Error.foreign e)) ∧
      (∀ msg, (announcePodCIDRs parse sched hand cidrs w).1 ≠ some (errors.New msg)) := by
  have hne : advertsOf parse cidrs ≠ [] := (advertsOf_ne_nil parse cidrs).mpr h
  have hcalls := announce_calls parse sched hand cidrs w hne
  have hfst := announce_fst parse sched hand cidrs w hne
  obtain ⟨i0, hi0, hbad⟩ := hfail
  obtain ⟨pre, i, post, hsplit, hpre, hi, hw⟩ :=
    wait_first (completionOrder hand (completionOrder sched (PeerSessions w)))
      (fun i => outcome w i (advertsOf parse cidrs))
      ⟨i0, (mem_handOrder sched hand w i0).mpr hi0, hbad⟩
  have hmem : i ∈ completionOrder sched (PeerSessions w) := by
    apply (completionOrder_perm hand _).mem_iff.mp
    rw [hsplit]
    exact List.mem_append_right pre (List.mem_cons_self i post)
  have hres : (announcePodCIDRs parse sched hand cidrs w).1 =
      outcome w i (advertsOf parse cidrs) := by
    rw [hfst]
    exact hw
  obtain ⟨e, he⟩ : ∃ e, outcome w i (advertsOf parse cidrs) = some (Error.foreign e) := by
    unfold outcome at hi ⊢
    cases hp : w.peers[i]? with
    | none =>
      rw [hp] at hi
      exact absurd rfl hi
    | some p =>
      rw [hp] at hi
      cases hr : p.respond p.calls (advertsOf parse cidrs) with
      | none =>
        simp only [hr] at hi
        exact absurd rfl hi
      | some e => exact ⟨e, by simp only [hr, Option.map_some']⟩
  refine ⟨?_, ?_, pre.map (fun i => ⟨i, advertsOf parse cidrs, outcome w i (advertsOf parse cidrs)⟩),
    ⟨i, advertsOf parse cidrs, outcome w i (advertsOf parse cidrs)⟩,
    post.map (fun i => ⟨i, advertsOf parse cidrs, outcome w i (advertsOf parse cidrs)⟩),
    ?_, ?_, ?_, rfl, hres, ⟨e, by rw [hres, he]⟩, ?_⟩
  · rw [(announceGo_some parse sched cidrs w hne).1, hcalls, List.map_map]
    rfl
  · rw [hcalls, map_sess_order]
    exact completionOrder_perm sched _
  · unfold handedOver
    rw [hcalls, completionOrder_map, hsplit, List.map_append, List.map_cons]
  · intro x hx
    obtain ⟨k, hk, rfl⟩ := List.mem_map.mp hx
    exact hpre k hk
  · rw [hcalls]
    exact List.mem_map.mpr ⟨i, hmem, rfl⟩
  · intro msg hc
    rw [hres, he] at hc
    exact Error.noConfusion (Option.some.inj hc)

/-- Instance of the amended C7 on the state with three rejecting sessions:
the calls are made on sessions 0, 2, 1 and the error of session 2, handed
over first, is returned. -/
theorem announcePodCIDRs_firstHandedError_witness :
    (∃ c ∈ sampleCidrs, parses sampleParse c = true) ∧
    (∃ i, i < sampleDown.peers.length ∧
      outcome sampleDown i (advertsOf sampleParse sampleCidrs) ≠ none) ∧
    (announcePodCIDRs sampleParse [0, 1] [1] sampleCidrs sampleDown).1 =
      some (Error.foreign ⟨"peer 2 down"⟩) ∧
    ∃ pre c post,
      handedOver [1]
          (callsMade sampleDown
            (announcePodCIDRs sampleParse [0, 1] [1] sampleCidrs sampleDown).2) =
        pre ++ c :: post ∧
      (∀ x ∈ pre, x.err = none) ∧
      c ∈ callsMade sampleDown
        (announcePodCIDRs sampleParse [0, 1] [1] sampleCidrs sampleDown).2 ∧
      c.err = outcome sampleDown c.sess (advertsOf sampleParse sampleCidrs) ∧
      (announcePodCIDRs sampleParse [0, 1] [1] sampleCidrs sampleDown).1 = c.err ∧
      (∃ e, (announcePodCIDRs sampleParse [0, 1] [1] sampleCidrs sampleDown).1 =
        some (Error.foreign e)) ∧
      (∀ msg, (announcePodCIDRs sampleParse [0, 1] [1] sampleCidrs sampleDown).1 ≠
        some (errors.New msg)) :=
  ⟨⟨"10.0.0.0/24", by decide, by decide⟩, ⟨1, by decide, by decide⟩, by decide,
   (announcePodCIDRs_firstHandedError sampleParse [0, 1] [1] sampleCidrs sampleDown
     ⟨"10.0.0.0/24", by decide, by decide⟩ ⟨1, by decide, by decide⟩).2.2⟩

/-- C8: `announcePodCIDRs` is repeatable: called twice in a row with the same
prefix list (`r1`, then `r2` on the state `r1` leaves, under any schedules), it
sends every session
the same batches both times, the second call sends what a single call on the
original state (`r0`) sends, and when some entry parses each session receives
the same advertisement list once per call. -/
theorem announcePodCIDRs_repeat (parse : Parser) (s1 t1 s2 t2 : List Nat)
    (cidrs : List String) (w : World) (r1 r2 r0 : Option Error × World)
    (h1 : r1 = announcePodCIDRs parse s1 t1 cidrs w)
    (h2 : r2 = announcePodCIDRs parse s2 t2 cidrs r1.2)
    (h0 : r0 = announcePodCIDRs parse s2 t2 cidrs w)
    (i : Nat) (hi : i < w.peers.length) :
    newBatches w r1.2 i = newBatches r1.2 r2.2 i ∧
    newBatches r1.2 r2.2 i = newBatches w r0.2 i ∧
    received r1.2 i = received w i ++ newBatches w r1.2 i ∧
    received r2.2 i = received r1.2 i ++ newBatches r1.2 r2.2 i ∧
    ((∃ c ∈ cidrs, parses parse c = true) →
      newBatches w r1.2 i = [advertsOf parse cidrs] ∧
      newBatches r1.2 r2.2 i = [advertsOf parse cidrs]) ∧
    (callsMade w r1.2).map (fun c => c.advs) = (callsMade r1.2 r2.2).map (fun c => c.advs) := by
  subst h1 h2 h0
  have hlen := announce_peers_length parse s1 t1 cidrs w
  have hi1 : i < (announcePodCIDRs parse s1 t1 cidrs w).2.peers.length := by
    rw [hlen]; exact hi
  have e1 := announce_received parse s1 t1 cidrs w i hi
  have e2 := announce_received parse s2 t2 cidrs (announcePodCIDRs parse s1 t1 cidrs w).2 i hi1
  have e0 := announce_received parse s2 t2 cidrs w i hi
  have b1 := newBatches_append _ _ i _ e1
  have b2 := newBatches_append _ _ i _ e2
  have b0 := newBatches_append _ _ i _ e0
  refine ⟨?_, ?_, ?_, ?_, ?_, ?_⟩
  · rw [b1, b2]
  · rw [b2, b0]
  · rw [b1]
    exact e1
  · rw [b2]
    exact e2
  · intro hp
    have hne : advertsOf parse cidrs ≠ [] := (advertsOf_ne_nil parse cidrs).mpr hp
    rw [b1, b2, if_neg hne]
    exact ⟨rfl, rfl⟩
  · rw [announce_batches, announce_batches, hlen]

/-- Instance of C8 on the sample state, session 1, with two different
completion orders. -/
theorem announcePodCIDRs_repeat_witness :
    1 < sampleWorld.peers.length ∧
    newBatches sampleWorld (announcePodCIDRs sampleParse [2] [1] sampleCidrs sampleWorld).2 1 =
      newBatches (announcePodCIDRs sampleParse [2] [1] sampleCidrs sampleWorld).2
        (announcePodCIDRs sampleParse [1] [1] sampleCidrs
          (announcePodCIDRs sampleParse [2] [1] sampleCidrs sampleWorld).2).2 1 ∧
    newBatches sampleWorld (announcePodCIDRs sampleParse [2] [1] sampleCidrs sampleWorld).2 1 =
      [advertsOf sampleParse sampleCidrs] :=
  ⟨by decide,
   (announcePodCIDRs_repeat sampleParse [2] [1] [1] [1] sampleCidrs sampleWorld _ _ _ rfl rfl
      rfl 1
      (by decide)).1,
   ((announcePodCIDRs_repeat sampleParse [2] [1] [1] [1] sampleCidrs sampleWorld _ _ _ rfl rfl
      rfl 1
      (by decide)).2.2.2.2.1 ⟨"10.0.0.0/24", by decide, by decide⟩).1⟩

/-- C10: `announcePodCIDRs` returns nil exactly when there is no peer session,
or at least one prefix parses and the `Set` call of every session returns nil.
When no prefix parses, every call of `announce` returns the "no BGP
advertisements made" error, so with N ≥ 1 sessions the N goroutines return it
N times and it is the error `announcePodCIDRs` returns. -/
theorem announcePodCIDRs_result (parse : Parser) (sched hand : List Nat) (cidrs : List String)
    (w : World) :
    ((announcePodCIDRs parse sched hand cidrs w).1 = none ↔
      w.peers = [] ∨
        ((∃ c ∈ cidrs, parses parse c = true) ∧
          ∀ i, i < w.peers.length → outcome w i (advertsOf parse cidrs) = none)) ∧
    ((∀ c ∈ cidrs, parses parse c = false) →
      (∀ sess w1, (announce parse sess cidrs w1).1 = some noAdverts) ∧
      (announcePodCIDRsGo parse sched cidrs w).1 =
        List.replicate w.peers.length (some noAdverts) ∧
      (w.peers ≠ [] → (announcePodCIDRs parse sched hand cidrs w).1 = some noAdverts)) := by
  have hnone : advertsOf parse cidrs = [] →
      (announcePodCIDRs parse sched hand cidrs w).1 =
        if w.peers.length = 0 then none else some noAdverts :=
    announce_fst_none parse sched hand cidrs w
  constructor
  · by_cases hn : advertsOf parse cidrs = []
    · have hno : ¬ ∃ c ∈ cidrs, parses parse c = true :=
        fun hp => (advertsOf_ne_nil parse cidrs).mpr hp hn
      rw [hnone hn]
      constructor
      · intro hres
        left
        by_contra hpe
        rw [if_neg (fun e => hpe (List.length_eq_zero.mp e))] at hres
        exact Option.noConfusion hres
      · intro hor
        rcases hor with hpe | ⟨hp, _⟩
        · rw [hpe]
          rfl
        · exact absurd hp hno
    · have hp : ∃ c ∈ cidrs, parses parse c = true := (advertsOf_ne_nil parse cidrs).mp hn
      rw [announce_fst parse sched hand cidrs w hn, wait_eq_none]
      constructor
      · intro hall
        right
        exact ⟨hp, fun i hi => hall i ((mem_handOrder sched hand w i).mpr hi)⟩
      · intro hor i hi
        have hlt := (mem_handOrder sched hand w i).mp hi
        rcases hor with hpe | ⟨_, hall⟩
        · rw [hpe] at hlt
          exact absurd hlt (Nat.not_lt_zero i)
        · exact hall i hlt
  · intro hall
    have hn : advertsOf parse cidrs = [] := (advertsOf_eq_nil parse cidrs).mpr hall
    refine ⟨?_, (announceGo_none parse sched cidrs w hn).1, ?_⟩
    · intro sess w1
      rw [announce_eq_err parse sess cidrs w1 hn]
    · intro hpe
      rw [hnone hn, if_neg (fun e => hpe (List.length_eq_zero.mp e))]

/-- Instance of C10 on the sample state with a malformed prefix: three
sessions, the error produced three times and returned. -/
theorem announcePodCIDRs_result_witness :
    (∀ c ∈ ["bad-cidr"], parses sampleParse c = false) ∧
    (announcePodCIDRsGo sampleParse [1] ["bad-cidr"] sampleWorld).1 =
      List.replicate sampleWorld.peers.length (some noAdverts) ∧
    ((announcePodCIDRs sampleParse [1] [1] sampleCidrs sampleWorld).1 = none ↔
      sampleWorld.peers = [] ∨
        ((∃ c ∈ sampleCidrs, parses sampleParse c = true) ∧
          ∀ i, i < sampleWorld.peers.length →
            outcome sampleWorld i (advertsOf sampleParse sampleCidrs) = none)) :=
  ⟨by decide,
   ((announcePodCIDRs_result sampleParse [1] [1] ["bad-cidr"] sampleWorld).2 (by decide)).2.1,
   (announcePodCIDRs_result sampleParse [1] [1] sampleCidrs sampleWorld).1⟩

end Speaker
